import Mathlib

/-!
Shallow embedding of `src/annotate-delimiters.js` (the delimiter-to-range
annotation engine) and proofs about the claims of the specification.

Modelling conventions:
* Text is a `List Char`. The source iterates UTF-16 code units of a JS
  string; for the BMP characters exercised by the configuration and tests
  this agrees with a list of Unicode scalar values.
* JS 32-bit integer arithmetic is modelled as `Nat` kept below `2^32`
  (`% M32` wherever the source truncates). `x >>> k` is `x / 2^k`,
  `Math.imul a b` is `a * b % M32`, bitwise xor/or are `Nat.xor`/`Nat.lor`
  on the unsigned representatives.
* `Math.floor(rand() * arr.length)` with `rand() = u / 2^32` for a 32-bit
  `u` equals `u * arr.length / 2^32` in exact (Nat) arithmetic: both the
  quotient `u / 2^32` and the product are exact in double precision for
  any array of fewer than `2^21` entries.
* A JS `Set` of strings is modelled as a duplicate-free `List String`
  (`setAdd` appends only when absent); only membership and insertion are
  used by the source.
* A range object either carries the property `open: true` or carries no
  `open` property at all; this presence/absence is `openTag : Option Bool`
  (`some true` for present, `none` for absent).
-/

/-- A location in the source text: `{ line, col, index }` in the source. -/
structure Position where
  line : Nat
  col : Nat
  index : Nat
deriving DecidableEq, Repr

/-- A delimiter's configuration entry: `{ kind, color? }` in the source,
where `color` is present only for on/off symbols (and may be absent even
then). -/
structure SymbolSpec where
  kind : String
  color : Option String
deriving DecidableEq, Repr

/-- A stack entry of the scan: `{ symbol, color, start }` in the source. -/
structure OpenRegion where
  symbol : Char
  color : String
  start : Position
deriving DecidableEq, Repr

/-- An emitted range. `stop` is the source's `end` field (`end` is a Lean
keyword). `openTag = some true` models the presence of `open: true` on
ranges flushed at end-of-input; `none` models the absence of the property
on naturally closed ranges. -/
structure AnnRange where
  symbol : Char
  color : String
  start : Position
  stop : Position
  openTag : Option Bool
deriving DecidableEq, Repr

/-- The object returned by `annotate` in the source: `{ ranges }`. -/
structure AnnotationResult where
  ranges : List AnnRange
deriving DecidableEq, Repr

/-- The `cfg` argument of `annotate`: an object with a `symbols` mapping.
The JS object mapping single-character keys to specs is an association
list with distinct keys; lookup returns the first match. -/
structure Config where
  symbols : List (Char × SymbolSpec)
deriving DecidableEq, Repr

/-- `2^32`, the modulus of all JS 32-bit truncations in the source. -/
def M32 : Nat := 4294967296

/-- First-match association-list lookup, the model of `symbolMap[ch]`
(with `delimiters.has(ch)` being `isSome` of the result). -/
def lookupSymbol : List (Char × SymbolSpec) → Char → Option SymbolSpec
  | [], _ => none
  | (c, s) :: rest, ch => if c = ch then some s else lookupSymbol rest ch

/-- One draw of the Mulberry32 generator from the source:

    t += 0x6D2B79F5;
    let r = Math.imul(t ^ (t >>> 15), 1 | t);
    r ^= r + Math.imul(r ^ (r >>> 7), 61 | r);
    return ((r ^ (r >>> 14)) >>> 0) / 4294967296;

Returns the 32-bit numerator of the produced fraction together with the
new generator state. -/
def mulberry32Step (t : Nat) : Nat × Nat :=
  let t1 := (t + 0x6D2B79F5) % M32
  let r1 := Nat.xor t1 (t1 / 32768)
  let r2 := r1 * Nat.lor 1 t1 % M32
  let s := (r2 + Nat.xor r2 (r2 / 128) * Nat.lor 61 r2 % M32) % M32
  let r3 := Nat.xor r2 s
  (Nat.xor r3 (r3 / 16384), t1)

/-- JS `Set.prototype.add` on the list model: append only when absent. -/
def setAdd (s : List String) (c : String) : List String :=
  if s.contains c then s else s ++ [c]

/-- `pickColor(rand, palette, usedSet)` from the source. The generator
state and used-color set are passed and returned explicitly; the source
mutates them in place. With an empty palette the source returns the
neutral fallback without drawing from the generator or touching the
used set. -/
def pickColor (rng : Nat) (palette : List String) (usedSet : List String) :
    String × Nat × List String :=
  if palette.isEmpty then ("#CCCCCC", rng, usedSet)
  else
    let unused := palette.filter (fun c => !usedSet.contains c)
    let arr := if unused.isEmpty then palette else unused
    let (u, rng1) := mulberry32Step rng
    let idx := u * arr.length / M32
    let color := arr.getD idx "#CCCCCC"
    (color, rng1, setAdd usedSet color)

/-- JS `spec.color || '#CCCCCC'`: the empty string is falsy, so it also
falls back. -/
def jsOrDefault (c : Option String) (d : String) : String :=
  match c with
  | some s => if s = "" then d else s
  | none => d

/-- The open-branch color resolution of the scan loop:

    let color = '#CCCCCC';
    if (spec.kind === 'onoff') { color = spec.color || '#CCCCCC'; usedColors.add(color); }
    else if (spec.kind === 'random') { color = pickColor(rand, palette, usedColors); }
-/
def resolveColor (palette : List String) (spec : SymbolSpec) (rng : Nat)
    (used : List String) : String × Nat × List String :=
  if spec.kind = "onoff" then
    let color := jsOrDefault spec.color "#CCCCCC"
    (color, rng, setAdd used color)
  else if spec.kind = "random" then
    pickColor rng palette used
  else
    ("#CCCCCC", rng, used)

/-- The mutable state of the scan loop in `annotate`: cursor, generator,
used-color set, open-region stack (head = top), emitted ranges (in
emission order). -/
structure ScanState where
  line : Nat
  col : Nat
  rng : Nat
  usedColors : List String
  stack : List OpenRegion
  ranges : List AnnRange
deriving DecidableEq, Repr

/-- The open branch of the loop body: resolve a color, push an
`OpenRegion` starting at the current cursor, advance the column. -/
def pushOpen (palette : List String) (st : ScanState) (i : Nat) (ch : Char)
    (spec : SymbolSpec) : ScanState :=
  let rcu := resolveColor palette spec st.rng st.usedColors
  { st with rng := rcu.2.1
            usedColors := rcu.2.2
            stack := ⟨ch, rcu.1, ⟨st.line, st.col, i⟩⟩ :: st.stack
            col := st.col + 1 }

/-- The body of the `for` loop of `annotate` for the character `ch` at
index `i`. A configured character closes when the stack top carries the
same symbol, otherwise opens, and in either case advances the column by
one; an unconfigured newline advances the line and resets the column;
any other unconfigured character advances the column. (The source's
`if (!spec) continue;` guard is unreachable in the typed model: every
configured symbol maps to an actual `SymbolSpec`.) -/
def annotateChar (symbols : List (Char × SymbolSpec)) (palette : List String)
    (st : ScanState) (i : Nat) (ch : Char) : ScanState :=
  match lookupSymbol symbols ch with
  | some spec =>
    match st.stack with
    | top :: rest =>
      if top.symbol = ch then
        { st with stack := rest
                  ranges := st.ranges ++
                    [⟨ch, top.color, top.start, ⟨st.line, st.col, i⟩, none⟩]
                  col := st.col + 1 }
      else
        pushOpen palette st i ch spec
    | [] => pushOpen palette st i ch spec
  | none =>
    if ch = '\n' then { st with line := st.line + 1, col := 0 }
    else { st with col := st.col + 1 }

/-- The `for (let i = 0; i < content.length; i++)` loop, character by
character, threading the state and the index. -/
def annotateLoop (symbols : List (Char × SymbolSpec)) (palette : List String) :
    List Char → Nat → ScanState → ScanState
  | [], _, st => st
  | ch :: rest, i, st =>
    annotateLoop symbols palette rest (i + 1) (annotateChar symbols palette st i ch)

/-- The end-of-input flush: pop every remaining open region in LIFO
order and emit it with the synthesized `end` position and `open: true`. -/
def flushStack (eofPos : Position) : List OpenRegion → List AnnRange
  | [] => []
  | e :: rest => ⟨e.symbol, e.color, e.start, eofPos, some true⟩ :: flushStack eofPos rest

/-- The initial loop state: `line = 0, col = 0`, generator seeded with
`seed >>> 0`, empty used-color set, empty stack, no ranges. -/
def initState (seed : Nat) : ScanState :=
  ⟨0, 0, seed % M32, [], [], []⟩

/-- `annotate(content, cfg, palette, seed)` from the source: run the scan
loop over the whole text, then flush the remaining stack at the
end-of-file position `{ line, col, index: content.length }`. -/
def annotate (content : List Char) (cfg : Config) (palette : List String)
    (seed : Nat) : AnnotationResult :=
  let st := annotateLoop cfg.symbols palette content 0 (initState seed)
  let eofPos : Position := ⟨st.line, st.col, content.length⟩
  ⟨st.ranges ++ flushStack eofPos st.stack⟩

/-! ### Defaults and concrete fixtures from the source configuration -/

/-- The default on/off spec of `buildDefaultConfig`. -/
def triOn : SymbolSpec := ⟨"onoff", some "#FFE26A"⟩

/-- A second on/off spec (fixed color from the default palette). -/
def sqOn : SymbolSpec := ⟨"onoff", some "#89B4FA"⟩

/-- A configuration with the single on/off symbol `△`. -/
def cfgTri : Config := ⟨[('△', triOn)]⟩

/-- A configuration with the two on/off symbols `△` and `▢`. -/
def cfgTriSq : Config := ⟨[('△', triOn), ('▢', sqOn)]⟩

/-- A configuration in which the newline character itself is a configured
delimiter. -/
def cfgNewline : Config := ⟨[('\n', triOn)]⟩

/-! ### Basic facts about the loop body and the end-of-input flush -/

/-- An unconfigured character only moves the cursor. -/
theorem annotateChar_not_configured (symbols : List (Char × SymbolSpec))
    (p : List String) (st : ScanState) (i : Nat) (ch : Char)
    (h : lookupSymbol symbols ch = none) :
    annotateChar symbols p st i ch =
      if ch = '\n' then { st with line := st.line + 1, col := 0 }
      else { st with col := st.col + 1 } := by
  simp only [annotateChar, h]

/-- A configured character whose symbol is on top of the stack closes:
pop, emit the range, advance the column. -/
theorem annotateChar_close (symbols : List (Char × SymbolSpec))
    (p : List String) (st : ScanState) (i : Nat) (ch : Char) (spec : SymbolSpec)
    (top : OpenRegion) (rest : List OpenRegion)
    (h : lookupSymbol symbols ch = some spec) (hstk : st.stack = top :: rest)
    (htop : top.symbol = ch) :
    annotateChar symbols p st i ch =
      { st with stack := rest
                ranges := st.ranges ++
                  [⟨ch, top.color, top.start, ⟨st.line, st.col, i⟩, none⟩]
                col := st.col + 1 } := by
  simp only [annotateChar, h, hstk, htop, if_pos]

/-- A configured character seen with an empty stack opens. -/
theorem annotateChar_open_nil (symbols : List (Char × SymbolSpec))
    (p : List String) (st : ScanState) (i : Nat) (ch : Char) (spec : SymbolSpec)
    (h : lookupSymbol symbols ch = some spec) (hstk : st.stack = []) :
    annotateChar symbols p st i ch = pushOpen p st i ch spec := by
  simp only [annotateChar, h, hstk]

/-- A configured character that does not match the stack top opens. -/
theorem annotateChar_open_ne (symbols : List (Char × SymbolSpec))
    (p : List String) (st : ScanState) (i : Nat) (ch : Char) (spec : SymbolSpec)
    (top : OpenRegion) (rest : List OpenRegion)
    (h : lookupSymbol symbols ch = some spec) (hstk : st.stack = top :: rest)
    (htop : top.symbol ≠ ch) :
    annotateChar symbols p st i ch = pushOpen p st i ch spec := by
  simp only [annotateChar, h, hstk, htop, if_neg, ite_false]

/-- The flush is a map over the remaining stack in pop order. -/
theorem flushStack_eq_map (pos : Position) :
    ∀ stk : List OpenRegion,
      flushStack pos stk = stk.map fun e => ⟨e.symbol, e.color, e.start, pos, some true⟩
  | [] => rfl
  | _ :: rest => by simp only [flushStack, List.map_cons, flushStack_eq_map pos rest]

/-- Every flushed range carries `open: true` and the synthesized
end-of-file position. -/
theorem flushStack_mem (pos : Position) (stk : List OpenRegion) :
    ∀ r ∈ flushStack pos stk, r.openTag = some true ∧ r.stop = pos := by
  rw [flushStack_eq_map]
  intro r hr
  rcases List.mem_map.mp hr with ⟨e, _, rfl⟩
  exact ⟨rfl, rfl⟩

/-- The flush emits one range per remaining open region. -/
theorem flushStack_length (pos : Position) (stk : List OpenRegion) :
    (flushStack pos stk).length = stk.length := by
  rw [flushStack_eq_map, List.length_map]

/-- With no configured symbols the loop never touches stack or ranges. -/
theorem annotateLoop_no_symbols (p : List String) :
    ∀ (t : List Char) (i : Nat) (st : ScanState),
      (annotateLoop [] p t i st).stack = st.stack ∧
      (annotateLoop [] p t i st).ranges = st.ranges
  | [], _, _ => ⟨rfl, rfl⟩
  | ch :: rest, i, st => by
    have hch := annotateChar_not_configured [] p st i ch rfl
    have ih := annotateLoop_no_symbols p rest (i + 1) (annotateChar [] p st i ch)
    refine ⟨?_, ?_⟩
    · rw [annotateLoop, ih.1, hch]
      by_cases hnl : ch = '\n' <;> simp [hnl]
    · rw [annotateLoop, ih.2, hch]
      by_cases hnl : ch = '\n' <;> simp [hnl]

/-! ### Claim C1: determinism -/

/-- C1: the annotator is deterministic. `annotate` is a pure function of
exactly the tuple `(text, symbols, palette, seed)`: its only source of
randomness is the explicitly seeded `mulberry32Step` generator threaded
through the state, so two invocations on identical inputs produce
identical `AnnotationResult` values (same ranges, same coordinates and
colors, same order), with no dependence on external entropy. -/
theorem annotate_deterministic (content : List Char) (cfg : Config)
    (palette : List String) (seed : Nat) :
    annotate content cfg palette seed = annotate content cfg palette seed := rfl

/-! ### Claim C2: the close/open rule for configured characters -/

/-- C2: an occurrence of a configured character closes exactly when the
stack is non-empty and its top entry's symbol equals the character — the
top is popped and a range is emitted with the popped entry's start and
color and the current position as end — and in every other case (empty
stack, or a different symbol on top) it opens a region pushed onto the
stack. The two implications exhaust all stack shapes, so no occurrence is
ever treated as a malformed-input error. -/
theorem annotateChar_close_iff_top_matches (symbols : List (Char × SymbolSpec))
    (p : List String) (st : ScanState) (i : Nat) (ch : Char) (spec : SymbolSpec)
    (hlk : lookupSymbol symbols ch = some spec) :
    (∀ top rest, st.stack = top :: rest → top.symbol = ch →
      annotateChar symbols p st i ch =
        { st with stack := rest
                  ranges := st.ranges ++
                    [⟨ch, top.color, top.start, ⟨st.line, st.col, i⟩, none⟩]
                  col := st.col + 1 }) ∧
    ((st.stack = [] ∨ ∃ top rest, st.stack = top :: rest ∧ top.symbol ≠ ch) →
      ∃ color rng used, annotateChar symbols p st i ch =
        { st with stack := ⟨ch, color, ⟨st.line, st.col, i⟩⟩ :: st.stack
                  rng := rng
                  usedColors := used
                  col := st.col + 1 }) := by
  constructor
  · intro top rest hstk htop
    exact annotateChar_close symbols p st i ch spec top rest hlk hstk htop
  · intro h
    refine ⟨(resolveColor p spec st.rng st.usedColors).1,
            (resolveColor p spec st.rng st.usedColors).2.1,
            (resolveColor p spec st.rng st.usedColors).2.2, ?_⟩
    rcases h with hnil | ⟨top, rest, hstk, htop⟩
    · rw [annotateChar_open_nil symbols p st i ch spec hlk hnil]
      rfl
    · rw [annotateChar_open_ne symbols p st i ch spec top rest hlk hstk htop]
      rfl

/-- A state holding one open `△` region, used to exercise the closing
branch at a concrete input. -/
def stClose : ScanState := ⟨0, 1, 0, [], [⟨'△', "#FFE26A", ⟨0, 0, 0⟩⟩], []⟩

/-- Witness for C2: both branches at concrete inputs — a `△` with a
matching `△` on top of the stack closes and emits the range; a `△` seen
on an empty stack opens. -/
theorem annotateChar_close_iff_top_matches_witness :
    (annotateChar cfgTri.symbols [] stClose 1 '△' =
      { stClose with stack := []
                     ranges := stClose.ranges ++
                       [⟨'△', "#FFE26A", ⟨0, 0, 0⟩, ⟨stClose.line, stClose.col, 1⟩, none⟩]
                     col := stClose.col + 1 }) ∧
    (∃ color rng used, annotateChar cfgTri.symbols [] (initState 0) 0 '△' =
      { initState 0 with stack := [⟨'△', color, ⟨(initState 0).line, (initState 0).col, 0⟩⟩]
                         rng := rng
                         usedColors := used
                         col := (initState 0).col + 1 }) :=
  ⟨(annotateChar_close_iff_top_matches cfgTri.symbols [] stClose 1 '△' triOn rfl).1
      _ _ rfl rfl,
   (annotateChar_close_iff_top_matches cfgTri.symbols [] (initState 0) 0 '△' triOn rfl).2
      (Or.inl rfl)⟩

/-! ### Claim C6: line/column accounting on the concrete input "a\n△b△" -/

/-- C6 counterexample: on the text `"a\n△b△"` the code produces no `△`
range with `start.col = 1` and `end.col = 3`. The cursor is recorded
before the column advance of the delimiter itself, so the `△` range
starts at column 0 and ends at column 2 of line 1, not at columns 1
and 3 as the claim states. -/
theorem line_col_accounting_cex :
    ¬ ∃ r ∈ (annotate ['a', '\n', '△', 'b', '△'] cfgTri [] 0).ranges,
        r.symbol = '△' ∧ r.start.line = 1 ∧ r.start.col = 1 ∧
        r.stop.line = 1 ∧ r.stop.col = 3 := by decide

/-- C6 amended: on the text `"a\n△b△"` the single `△` range has
`start.line = 1, start.col = 0` and `end.line = 1, end.col = 2`
(0-based, the position of each delimiter character itself, which
occupies a column). -/
theorem line_col_accounting_amended :
    (annotate ['a', '\n', '△', 'b', '△'] cfgTri [] 0).ranges =
      [⟨'△', "#FFE26A", ⟨1, 0, 2⟩, ⟨1, 2, 4⟩, none⟩] := by decide

/-! ### Claim C7: cursor advancement -/

/-- C7 counterexample: when the newline character is itself a configured
delimiter, scanning `'\n'` takes the delimiter branch, which increments
the column and leaves the line unchanged — the claim's "on a newline the
line counter increments and the column resets to 0" fails. -/
theorem cursor_advance_cex :
    ¬ ((annotateChar cfgNewline.symbols [] (initState 0) 0 '\n').line =
          (initState 0).line + 1 ∧
       (annotateChar cfgNewline.symbols [] (initState 0) 0 '\n').col = 0) := by
  decide

/-- C7 amended: an unconfigured newline increments the line and resets
the column to 0; every other character — unconfigured non-newline, or
any configured delimiter including a newline configured as one —
increments the column by one and leaves the line unchanged; and the scan
index (the `offset`) increments by exactly one per character regardless
of character kind. -/
theorem cursor_advance_amended (symbols : List (Char × SymbolSpec))
    (p : List String) (st : ScanState) (i : Nat) (ch : Char) :
    ((lookupSymbol symbols ch = none ∧ ch = '\n') →
        annotateChar symbols p st i ch = { st with line := st.line + 1, col := 0 }) ∧
    ((lookupSymbol symbols ch = none ∧ ch ≠ '\n') →
        annotateChar symbols p st i ch = { st with col := st.col + 1 }) ∧
    (∀ spec, lookupSymbol symbols ch = some spec →
        (annotateChar symbols p st i ch).col = st.col + 1 ∧
        (annotateChar symbols p st i ch).line = st.line) ∧
    (∀ rest, annotateLoop symbols p (ch :: rest) i st =
        annotateLoop symbols p rest (i + 1) (annotateChar symbols p st i ch)) := by
  refine ⟨fun ⟨hlk, hnl⟩ => ?_, fun ⟨hlk, hnl⟩ => ?_, fun spec hlk => ?_, fun _ => rfl⟩
  · rw [annotateChar_not_configured symbols p st i ch hlk, if_pos hnl]
  · rw [annotateChar_not_configured symbols p st i ch hlk, if_neg hnl]
  · rcases hstk : st.stack with _ | ⟨top, rest⟩
    · rw [annotateChar_open_nil symbols p st i ch spec hlk hstk, pushOpen]
      exact ⟨rfl, rfl⟩
    · by_cases htop : top.symbol = ch
      · rw [annotateChar_close symbols p st i ch spec top rest hlk hstk htop]
        exact ⟨rfl, rfl⟩
      · rw [annotateChar_open_ne symbols p st i ch spec top rest hlk hstk htop, pushOpen]
        exact ⟨rfl, rfl⟩

/-- Witness for C7 (amended): all four conjuncts at concrete inputs — an
unconfigured newline, an unconfigured letter, a configured newline, and
one loop step. -/
theorem cursor_advance_amended_witness :
    (annotateChar [] [] (initState 0) 0 '\n' =
      { initState 0 with line := (initState 0).line + 1, col := 0 }) ∧
    (annotateChar [] [] (initState 0) 0 'a' =
      { initState 0 with col := (initState 0).col + 1 }) ∧
    ((annotateChar cfgNewline.symbols [] (initState 0) 0 '\n').col =
        (initState 0).col + 1 ∧
     (annotateChar cfgNewline.symbols [] (initState 0) 0 '\n').line =
        (initState 0).line) ∧
    (annotateLoop [] [] ['a'] 0 (initState 0) =
      annotateLoop [] [] [] 1 (annotateChar [] [] (initState 0) 0 'a')) :=
  ⟨(cursor_advance_amended [] [] (initState 0) 0 '\n').1 ⟨rfl, rfl⟩,
   (cursor_advance_amended [] [] (initState 0) 0 'a').2.1 ⟨rfl, by decide⟩,
   (cursor_advance_amended cfgNewline.symbols [] (initState 0) 0 '\n').2.2.1 triOn rfl,
   (cursor_advance_amended [] [] (initState 0) 0 'a').2.2.2 []⟩

/-! ### Claim C9: totality and defined fallbacks -/

/-- C9: the core is total and never fails. With an empty palette a
random-kind color resolution returns the fixed neutral fallback
`"#CCCCCC"` without drawing from the generator or touching the used set;
empty text yields the empty result; an empty symbol configuration yields
an empty range list for every text; and for every input (empty palette
included) `annotate` produces a result. -/
theorem annotate_total_fallback :
    (∀ rng used, pickColor rng [] used = ("#CCCCCC", rng, used)) ∧
    (∀ cfg palette seed, annotate [] cfg palette seed = ⟨[]⟩) ∧
    (∀ content palette seed, (annotate content ⟨[]⟩ palette seed).ranges = []) ∧
    (∀ content cfg seed, ∃ res, annotate content cfg [] seed = res) := by
  refine ⟨fun rng used => rfl, fun cfg palette seed => rfl,
          fun content palette seed => ?_, fun content cfg seed => ⟨_, rfl⟩⟩
  have h := annotateLoop_no_symbols palette content 0 (initState seed)
  show (annotateLoop [] palette content 0 (initState seed)).ranges ++
      flushStack ⟨(annotateLoop [] palette content 0 (initState seed)).line,
                  (annotateLoop [] palette content 0 (initState seed)).col,
                  content.length⟩
        (annotateLoop [] palette content 0 (initState seed)).stack = []
  rw [h.1, h.2]
  rfl

/-! ### Claim C10: degenerate symbol specs still work, with the fallback color -/

/-- C10: a configured symbol whose spec has kind `onoff` but no color, or
whose kind is neither `onoff` nor `random`, behaves like any other
configured symbol — it closes when its symbol is on top of the stack and
opens otherwise — and every region it opens carries the fixed fallback
color `"#CCCCCC"`. -/
theorem fallback_color_spec (symbols : List (Char × SymbolSpec))
    (p : List String) (st : ScanState) (i : Nat) (ch : Char) (spec : SymbolSpec)
    (hlk : lookupSymbol symbols ch = some spec)
    (hspec : (spec.kind = "onoff" ∧ spec.color = none) ∨
             (spec.kind ≠ "onoff" ∧ spec.kind ≠ "random")) :
    (∀ top rest, st.stack = top :: rest → top.symbol = ch →
      annotateChar symbols p st i ch =
        { st with stack := rest
                  ranges := st.ranges ++
                    [⟨ch, top.color, top.start, ⟨st.line, st.col, i⟩, none⟩]
                  col := st.col + 1 }) ∧
    ((st.stack = [] ∨ ∃ top rest, st.stack = top :: rest ∧ top.symbol ≠ ch) →
      (annotateChar symbols p st i ch).stack =
          ⟨ch, "#CCCCCC", ⟨st.line, st.col, i⟩⟩ :: st.stack ∧
      (annotateChar symbols p st i ch).ranges = st.ranges ∧
      (annotateChar symbols p st i ch).col = st.col + 1) := by
  have hcolor : (resolveColor p spec st.rng st.usedColors).1 = "#CCCCCC" := by
    rcases hspec with ⟨hk, hc⟩ | ⟨hk1, hk2⟩
    · simp [resolveColor, hk, hc, jsOrDefault]
    · simp [resolveColor, hk1, hk2]
  constructor
  · intro top rest hstk htop
    exact annotateChar_close symbols p st i ch spec top rest hlk hstk htop
  · intro h
    have hopen : annotateChar symbols p st i ch = pushOpen p st i ch spec := by
      rcases h with hnil | ⟨top, rest, hstk, htop⟩
      · exact annotateChar_open_nil symbols p st i ch spec hlk hnil
      · exact annotateChar_open_ne symbols p st i ch spec top rest hlk hstk htop
    rw [hopen, pushOpen, hcolor]
    exact ⟨rfl, rfl, rfl⟩

/-- A configured symbol with kind `onoff` but no configured color. -/
def sqNoColor : SymbolSpec := ⟨"onoff", none⟩

/-- Witness for C10: the open branch at a concrete input — a `▢` whose
spec is `onoff` with no color opens a region colored `"#CCCCCC"`. -/
theorem fallback_color_spec_witness :
    (annotateChar [('▢', sqNoColor)] [] (initState 0) 0 '▢').stack =
        [⟨'▢', "#CCCCCC", ⟨(initState 0).line, (initState 0).col, 0⟩⟩] ∧
    (annotateChar [('▢', sqNoColor)] [] (initState 0) 0 '▢').ranges = [] ∧
    (annotateChar [('▢', sqNoColor)] [] (initState 0) 0 '▢').col =
        (initState 0).col + 1 :=
  (fallback_color_spec [('▢', sqNoColor)] [] (initState 0) 0 '▢' sqNoColor rfl
      (Or.inl ⟨rfl, rfl⟩)).2 (Or.inl rfl)

/-! ### Claim C5, counterexample -/

/-- C5 counterexample: on the text `"△▢△▢△"` with both `△` and `▢`
configured, the symbol `△` appears an odd number of times (three), yet
three `△` ranges — not exactly one — are unclosed: every interleaved
occurrence opens because the stack top always carries the other symbol. -/
theorem odd_occurrences_single_unclosed_cex :
    ¬ (((annotate ['△', '▢', '△', '▢', '△'] cfgTriSq [] 0).ranges.filter
          (fun r => r.symbol == '△' && r.openTag == some true)).length = 1) := by
  decide

/-! ### Opening occurrences, the symbol-stack abstraction, and well-nesting -/

/-- Modelled from the spec's notion of "opening occurrence": the number
of loop iterations that take the open branch, computed from the text and
the stack of open symbols it induces (the second argument). Used to
compare the code's range count against the spec's count of opening
occurrences. -/
def opensLoop (symbols : List (Char × SymbolSpec)) : List Char → List Char → Nat
  | [], _ => 0
  | ch :: rest, stk =>
    match lookupSymbol symbols ch with
    | some _ =>
      match stk with
      | top :: stkRest =>
        if top = ch then opensLoop symbols rest stkRest
        else opensLoop symbols rest (ch :: top :: stkRest) + 1
      | [] => opensLoop symbols rest [ch] + 1
    | none => opensLoop symbols rest stk

/-- The action of the scan on the stack of open symbols alone, for a word
of delimiter occurrences (non-delimiters already filtered out). -/
def symScan : List Char → List Char → List Char
  | [], stk => stk
  | ch :: rest, stk =>
    match stk with
    | top :: stkRest =>
      if top = ch then symScan rest stkRest
      else symScan rest (ch :: top :: stkRest)
    | [] => symScan rest [ch]

/-- Strict well-nested pairing of a word of delimiter occurrences: empty,
or an occurrence of some symbol, a well-nested inside, the matching
occurrence of the same symbol, and a well-nested remainder. -/
inductive WellNested : List Char → Prop
  | nil : WellNested []
  | node (x : Char) (u v : List Char) : WellNested u → WellNested v →
      WellNested (x :: (u ++ x :: v))

/-! ### Invariants of the scan loop -/

/-- Every range emitted inside the loop is naturally closed: it carries no
`open` marker. -/
theorem annotateLoop_openTag (symbols : List (Char × SymbolSpec)) (p : List String) :
    ∀ (t : List Char) (i : Nat) (st : ScanState),
      (∀ r ∈ st.ranges, r.openTag = none) →
      ∀ r ∈ (annotateLoop symbols p t i st).ranges, r.openTag = none
  | [], _, _, h => h
  | ch :: rest, i, st, h => by
    simp only [annotateLoop]
    apply annotateLoop_openTag symbols p rest (i + 1) (annotateChar symbols p st i ch)
    rcases hlk : lookupSymbol symbols ch with _ | spec
    · rw [annotateChar_not_configured symbols p st i ch hlk]
      by_cases hnl : ch = '\n'
      · rw [if_pos hnl]; exact h
      · rw [if_neg hnl]; exact h
    · rcases hstk : st.stack with _ | ⟨top, restE⟩
      · rw [annotateChar_open_nil symbols p st i ch spec hlk hstk]
        exact h
      · by_cases htop : top.symbol = ch
        · rw [annotateChar_close symbols p st i ch spec top restE hlk hstk htop]
          intro r hr
          rcases List.mem_append.mp hr with hr | hr
          · exact h r hr
          · rcases List.mem_singleton.mp hr with rfl
            rfl
        · rw [annotateChar_open_ne symbols p st i ch spec top restE hlk hstk htop]
          exact h

/-- Range/stack bookkeeping: through any stretch of the loop, emitted
ranges plus still-open regions grow by exactly the number of opening
occurrences encountered. -/
theorem annotateLoop_length (symbols : List (Char × SymbolSpec)) (p : List String) :
    ∀ (t : List Char) (i : Nat) (st : ScanState),
      (annotateLoop symbols p t i st).ranges.length +
        (annotateLoop symbols p t i st).stack.length =
      st.ranges.length + st.stack.length +
        opensLoop symbols t (st.stack.map OpenRegion.symbol)
  | [], _, _ => by simp [annotateLoop, opensLoop]
  | ch :: rest, i, st => by
    simp only [annotateLoop]
    rw [annotateLoop_length symbols p rest (i + 1) (annotateChar symbols p st i ch)]
    rcases hlk : lookupSymbol symbols ch with _ | spec
    · rw [annotateChar_not_configured symbols p st i ch hlk]
      simp only [opensLoop, hlk]
      by_cases hnl : ch = '\n'
      · rw [if_pos hnl]
      · rw [if_neg hnl]
    · rcases hstk : st.stack with _ | ⟨top, restE⟩
      · rw [annotateChar_open_nil symbols p st i ch spec hlk hstk]
        simp only [pushOpen, hstk, opensLoop, hlk, List.map_nil, List.map_cons,
          List.length_nil, List.length_cons]
        omega
      · by_cases htop : top.symbol = ch
        · rw [annotateChar_close symbols p st i ch spec top restE hlk hstk htop]
          simp [hstk, opensLoop, hlk, htop]
          omega
        · rw [annotateChar_open_ne symbols p st i ch spec top restE hlk hstk htop]
          simp [pushOpen, hstk, opensLoop, hlk, htop]
          omega

/-! ### Claim C3: range count equals opening-occurrence count -/

/-- C3: the number of ranges in the output equals the number of opening
occurrences over the whole scan — every opened region appears exactly
once, whether naturally closed or flushed unclosed at end-of-input. -/
theorem annotate_length_eq_opening_count (content : List Char) (cfg : Config)
    (palette : List String) (seed : Nat) :
    (annotate content cfg palette seed).ranges.length =
      opensLoop cfg.symbols content [] := by
  have h := annotateLoop_length cfg.symbols palette content 0 (initState seed)
  have h0 : (initState seed).ranges.length = 0 := rfl
  have h1 : (initState seed).stack.length = 0 := rfl
  have h2 : (initState seed).stack.map OpenRegion.symbol = [] := rfl
  rw [h0, h1, h2] at h
  show ((annotateLoop cfg.symbols palette content 0 (initState seed)).ranges ++
      flushStack ⟨(annotateLoop cfg.symbols palette content 0 (initState seed)).line,
                  (annotateLoop cfg.symbols palette content 0 (initState seed)).col,
                  content.length⟩
        (annotateLoop cfg.symbols palette content 0 (initState seed)).stack).length =
    opensLoop cfg.symbols content []
  rw [List.length_append, flushStack_length]
  omega

/-! ### Claim C4: output ordering and placement of the open marker -/

/-- The state of the scan after the whole forward pass, before the
end-of-input flush. -/
def loopState (content : List Char) (cfg : Config) (palette : List String)
    (seed : Nat) : ScanState :=
  annotateLoop cfg.symbols palette content 0 (initState seed)

/-- The synthesized end-of-file position of a run of `annotate`. -/
def eofPosition (content : List Char) (cfg : Config) (palette : List String)
    (seed : Nat) : Position :=
  ⟨(loopState content cfg palette seed).line,
   (loopState content cfg palette seed).col, content.length⟩

/-- C4: the output is the naturally-closed ranges, in the order the
regions were closed (the loop appends each range at close time), followed
by the still-open regions flushed in LIFO pop order with the synthesized
end-of-file position; the `open: true` marker is present exactly on the
flushed ranges and absent — not `false` — on every naturally-closed
range. -/
theorem annotate_closed_first_then_lifo_flush (content : List Char) (cfg : Config)
    (palette : List String) (seed : Nat) :
    (annotate content cfg palette seed).ranges =
      (loopState content cfg palette seed).ranges ++
        flushStack (eofPosition content cfg palette seed)
          (loopState content cfg palette seed).stack ∧
    (∀ r ∈ (loopState content cfg palette seed).ranges, r.openTag = none) ∧
    (∀ r ∈ flushStack (eofPosition content cfg palette seed)
        (loopState content cfg palette seed).stack,
      r.openTag = some true ∧ r.stop = eofPosition content cfg palette seed) := by
  refine ⟨rfl, ?_, ?_⟩
  · exact annotateLoop_openTag cfg.symbols palette content 0 (initState seed)
      (fun r hr => absurd hr (List.not_mem_nil r))
  · exact flushStack_mem _ _

/-- Per-symbol bookkeeping: twice the emitted ranges of a symbol plus its
still-open regions grows by exactly the number of configured occurrences
of that symbol consumed so far. -/
theorem annotateLoop_countP (symbols : List (Char × SymbolSpec)) (p : List String)
    (ch : Char) :
    ∀ (t : List Char) (i : Nat) (st : ScanState),
      2 * ((annotateLoop symbols p t i st).ranges.countP (fun r => r.symbol == ch)) +
        (annotateLoop symbols p t i st).stack.countP (fun e => e.symbol == ch) =
      2 * (st.ranges.countP (fun r => r.symbol == ch)) +
        st.stack.countP (fun e => e.symbol == ch) +
        (t.filter (fun c => (lookupSymbol symbols c).isSome)).count ch
  | [], _, _ => by simp [annotateLoop]
  | c :: rest, i, st => by
    simp only [annotateLoop]
    rw [annotateLoop_countP symbols p ch rest (i + 1) (annotateChar symbols p st i c)]
    rcases hlk : lookupSymbol symbols c with _ | spec
    · rw [annotateChar_not_configured symbols p st i c hlk]
      by_cases hnl : c = '\n'
      · rw [if_pos hnl]
        simp [List.filter_cons, hlk]
      · rw [if_neg hnl]
        simp [List.filter_cons, hlk]
    · rcases hstk : st.stack with _ | ⟨top, restE⟩
      · rw [annotateChar_open_nil symbols p st i c spec hlk hstk]
        simp only [pushOpen, hstk, List.filter_cons, hlk, Option.isSome_some,
          if_true, List.count_cons, List.countP_cons, List.countP_nil]
        by_cases hc : c = ch <;> simp [hc] <;> omega
      · by_cases htop : top.symbol = c
        · rw [annotateChar_close symbols p st i c spec top restE hlk hstk htop]
          simp only [hstk, List.filter_cons, hlk, Option.isSome_some, if_true,
            List.count_cons, List.countP_cons, List.countP_append, htop]
          by_cases hc : c = ch <;> simp [hc] <;> omega
        · rw [annotateChar_open_ne symbols p st i c spec top restE hlk hstk htop]
          simp only [pushOpen, hstk, List.filter_cons, hlk, Option.isSome_some,
            if_true, List.count_cons, List.countP_cons]
          by_cases hc : c = ch <;> simp [hc] <;> omega

/-! ### Claim C5, amended: odd occurrence counts leave unclosed ranges -/

/-- The ranges of a run of `annotate` that carry the `open: true` marker
for a given symbol. -/
def unclosedFor (content : List Char) (cfg : Config) (palette : List String)
    (seed : Nat) (ch : Char) : List AnnRange :=
  (annotate content cfg palette seed).ranges.filter
    (fun r => r.symbol == ch && r.openTag == some true)

/-- C5 amended: when a configured symbol occurs an odd number of times,
an odd number of ranges for that symbol — hence at least one, but not
necessarily exactly one — is unclosed, and every unclosed range's end is
the end-of-file position, whose offset equals the length of the text. -/
theorem odd_occurrences_unclosed_range (content : List Char) (cfg : Config)
    (palette : List String) (seed : Nat) (ch : Char) (spec : SymbolSpec)
    (hcfg : lookupSymbol cfg.symbols ch = some spec)
    (hodd : content.count ch % 2 = 1) :
    (unclosedFor content cfg palette seed ch).length % 2 = 1 ∧
    1 ≤ (unclosedFor content cfg palette seed ch).length ∧
    ∀ r ∈ unclosedFor content cfg palette seed ch,
      r.stop = eofPosition content cfg palette seed ∧
      r.stop.index = content.length := by
  have hnone : ∀ r ∈ (loopState content cfg palette seed).ranges, r.openTag = none :=
    annotateLoop_openTag cfg.symbols palette content 0 (initState seed)
      (fun r hr => absurd hr (List.not_mem_nil r))
  have hdecomp : (annotate content cfg palette seed).ranges =
      (loopState content cfg palette seed).ranges ++
        flushStack (eofPosition content cfg palette seed)
          (loopState content cfg palette seed).stack := rfl
  have hfilter1 : (loopState content cfg palette seed).ranges.filter
      (fun r => r.symbol == ch && r.openTag == some true) = [] := by
    rw [List.filter_eq_nil_iff]
    intro r hr
    simp [hnone r hr]
  have hunc : unclosedFor content cfg palette seed ch =
      ((loopState content cfg palette seed).stack.filter
        (fun e => e.symbol == ch)).map
          (fun e => (⟨e.symbol, e.color, e.start,
            eofPosition content cfg palette seed, some true⟩ : AnnRange)) := by
    rw [unclosedFor, hdecomp, List.filter_append, hfilter1, List.nil_append,
      flushStack_eq_map, List.filter_map]
    congr 1
    apply List.filter_congr
    intro e _
    simp
  have hlen : (unclosedFor content cfg palette seed ch).length =
      (loopState content cfg palette seed).stack.countP (fun e => e.symbol == ch) := by
    rw [hunc, List.length_map, List.countP_eq_length_filter]
  have hcount := annotateLoop_countP cfg.symbols palette ch content 0 (initState seed)
  have h0 : (initState seed).ranges.countP (fun r => r.symbol == ch) = 0 := rfl
  have h1 : (initState seed).stack.countP (fun e => e.symbol == ch) = 0 := rfl
  have hcf : (content.filter
      (fun c => (lookupSymbol cfg.symbols c).isSome)).count ch = content.count ch :=
    List.count_filter (by simp [hcfg])
  rw [h0, h1, hcf] at hcount
  have hstep : (loopState content cfg palette seed).stack.countP
      (fun e => e.symbol == ch) % 2 = 1 := by
    have h2 : 2 * ((loopState content cfg palette seed).ranges.countP
        (fun r => r.symbol == ch)) +
        (loopState content cfg palette seed).stack.countP
          (fun e => e.symbol == ch) = 2 * 0 + 0 + content.count ch := hcount
    omega
  refine ⟨by rw [hlen]; exact hstep, by rw [hlen]; omega, ?_⟩
  intro r hr
  rw [hunc] at hr
  rcases List.mem_map.mp hr with ⟨e, _, rfl⟩
  exact ⟨rfl, rfl⟩

/-- Witness for C5 (amended): the single-character text `"△"` has an odd
`△` count and yields an unclosed `△` range ending at offset 1. -/
theorem odd_occurrences_unclosed_range_witness :
    lookupSymbol cfgTri.symbols '△' = some triOn ∧
    (['△'] : List Char).count '△' % 2 = 1 ∧
    ((unclosedFor ['△'] cfgTri [] 0 '△').length % 2 = 1 ∧
     1 ≤ (unclosedFor ['△'] cfgTri [] 0 '△').length ∧
     ∀ r ∈ unclosedFor ['△'] cfgTri [] 0 '△',
       r.stop = eofPosition ['△'] cfgTri [] 0 ∧
       r.stop.index = (['△'] : List Char).length) :=
  ⟨rfl, by decide,
   odd_occurrences_unclosed_range ['△'] cfgTri [] 0 '△' triOn rfl (by decide)⟩

/-! ### Towards claim C8: scanning a well-nested word returns the stack -/

/-- `symScan` distributes over concatenation of words. -/
theorem symScan_append (u v : List Char) :
    ∀ stk, symScan (u ++ v) stk = symScan v (symScan u stk) := by
  induction u with
  | nil => intro stk; rfl
  | cons ch rest ih =>
    intro stk
    rcases stk with _ | ⟨top, stkRest⟩
    · simp only [List.cons_append, symScan]
      exact ih _
    · simp only [List.cons_append, symScan]
      by_cases h : top = ch
      · simp [h, ih]
      · simp [h, ih]

/-- Scanning a well-nested word from any stack without adjacent duplicate
symbols returns that stack unchanged. (The scan's stack never holds two
adjacent equal symbols, since a push only happens when the top differs.) -/
theorem symScan_wellNested {w : List Char} (hw : WellNested w) :
    ∀ stk, List.Chain' (fun a b => a ≠ b) stk → symScan w stk = stk := by
  induction hw with
  | nil => intro stk _; rfl
  | node x u v hu hv ihu ihv =>
    intro stk hstk
    rcases stk with _ | ⟨top, τ⟩
    · have e1 : symScan (x :: (u ++ x :: v)) [] = symScan (u ++ x :: v) [x] := rfl
      rw [e1, symScan_append, ihu [x] (List.chain'_singleton x)]
      have e2 : symScan (x :: v) [x] = symScan v [] := by simp [symScan]
      rw [e2]
      exact ihv [] List.chain'_nil
    · by_cases hx : top = x
      · subst hx
        have e1 : symScan (top :: (u ++ top :: v)) (top :: τ) =
            symScan (u ++ top :: v) τ := by simp [symScan]
        rw [e1, symScan_append, ihu τ hstk.tail]
        rcases τ with _ | ⟨t2, τ2⟩
        · have e2 : symScan (top :: v) [] = symScan v [top] := rfl
          rw [e2]
          exact ihv [top] (List.chain'_singleton top)
        · have hne : top ≠ t2 := (List.chain'_cons.mp hstk).1
          have e2 : symScan (top :: v) (t2 :: τ2) = symScan v (top :: t2 :: τ2) := by
            simp [symScan, Ne.symm hne]
          rw [e2]
          exact ihv (top :: t2 :: τ2) hstk
      · have e1 : symScan (x :: (u ++ x :: v)) (top :: τ) =
            symScan (u ++ x :: v) (x :: top :: τ) := by simp [symScan, hx]
        have hch : List.Chain' (fun a b => a ≠ b) (x :: top :: τ) :=
          List.chain'_cons.mpr ⟨fun hxe => hx (hxe.symm), hstk⟩
        rw [e1, symScan_append, ihu _ hch]
        have e2 : symScan (x :: v) (x :: top :: τ) = symScan v (top :: τ) := by
          simp [symScan]
        rw [e2]
        exact ihv (top :: τ) hstk

/-- The open-region stack of the scan, projected to its symbols, follows
`symScan` on the configured-delimiter subsequence of the text. -/
theorem annotateLoop_stack_symbols (symbols : List (Char × SymbolSpec)) (p : List String) :
    ∀ (t : List Char) (i : Nat) (st : ScanState),
      (annotateLoop symbols p t i st).stack.map OpenRegion.symbol =
        symScan (t.filter (fun c => (lookupSymbol symbols c).isSome))
          (st.stack.map OpenRegion.symbol)
  | [], _, _ => rfl
  | c :: rest, i, st => by
    simp only [annotateLoop]
    rw [annotateLoop_stack_symbols symbols p rest (i + 1) (annotateChar symbols p st i c)]
    rcases hlk : lookupSymbol symbols c with _ | spec
    · rw [annotateChar_not_configured symbols p st i c hlk]
      simp only [List.filter_cons, hlk, Option.isSome_none, Bool.false_eq_true, if_false]
      by_cases hnl : c = '\n'
      · rw [if_pos hnl]
      · rw [if_neg hnl]
    · simp only [List.filter_cons, hlk, Option.isSome_some, if_true]
      rcases hstk : st.stack with _ | ⟨top, restE⟩
      · rw [annotateChar_open_nil symbols p st i c spec hlk hstk]
        simp [pushOpen, hstk, symScan]
      · by_cases htop : top.symbol = c
        · rw [annotateChar_close symbols p st i c spec top restE hlk hstk htop]
          simp [hstk, symScan, htop]
        · rw [annotateChar_open_ne symbols p st i c spec top restE hlk hstk htop]
          simp [pushOpen, hstk, symScan, htop]

/-! ### Claim C8: well-nested even occurrences close everything -/

/-- C8: when the configured-delimiter occurrences of the text form a
strictly nested well-formed pairing (hence every configured delimiter
character appears an even number of times), every range in the output is
closed — none carries the `open` marker — and for each configured symbol
the count of its ranges is half the count of that symbol's occurrences. -/
theorem wellNested_all_closed (content : List Char) (cfg : Config)
    (palette : List String) (seed : Nat)
    (hbal : WellNested (content.filter
      (fun c => (lookupSymbol cfg.symbols c).isSome))) :
    (∀ r ∈ (annotate content cfg palette seed).ranges, r.openTag = none) ∧
    (∀ ch spec, lookupSymbol cfg.symbols ch = some spec →
      2 * ((annotate content cfg palette seed).ranges.countP
        (fun r => r.symbol == ch)) = content.count ch) := by
  have hmap : (annotateLoop cfg.symbols palette content 0 (initState seed)).stack.map
      OpenRegion.symbol = [] := by
    rw [annotateLoop_stack_symbols]
    have h2 : (initState seed).stack.map OpenRegion.symbol = [] := rfl
    rw [h2]
    exact symScan_wellNested hbal [] List.chain'_nil
  have hstack : (annotateLoop cfg.symbols palette content 0 (initState seed)).stack = [] :=
    List.map_eq_nil_iff.mp hmap
  have hranges : (annotate content cfg palette seed).ranges =
      (annotateLoop cfg.symbols palette content 0 (initState seed)).ranges := by
    show (annotateLoop cfg.symbols palette content 0 (initState seed)).ranges ++
        flushStack ⟨(annotateLoop cfg.symbols palette content 0 (initState seed)).line,
                    (annotateLoop cfg.symbols palette content 0 (initState seed)).col,
                    content.length⟩
          (annotateLoop cfg.symbols palette content 0 (initState seed)).stack = _
    rw [hstack]
    simp [flushStack]
  constructor
  · rw [hranges]
    exact annotateLoop_openTag cfg.symbols palette content 0 (initState seed)
      (fun r hr => absurd hr (List.not_mem_nil r))
  · intro ch spec hcfg
    have hcount := annotateLoop_countP cfg.symbols palette ch content 0 (initState seed)
    have h0 : (initState seed).ranges.countP (fun r => r.symbol == ch) = 0 := rfl
    have h1 : (initState seed).stack.countP (fun e => e.symbol == ch) = 0 := rfl
    have hcf : (content.filter
        (fun c => (lookupSymbol cfg.symbols c).isSome)).count ch = content.count ch :=
      List.count_filter (by simp [hcfg])
    rw [h0, h1, hcf, hstack] at hcount
    rw [hranges]
    have h3 : (List.countP (fun e => e.symbol == ch) ([] : List OpenRegion)) = 0 := rfl
    rw [h3] at hcount
    omega

/-- Witness for C8: the spec's nesting example `"△x▢y▢z△"`, whose
configured-delimiter subsequence `△▢▢△` is well-nested; both output
ranges are closed, and each symbol gets half as many ranges as
occurrences. -/
theorem wellNested_all_closed_witness :
    (∀ r ∈ (annotate ['△', 'x', '▢', 'y', '▢', 'z', '△'] cfgTriSq [] 0).ranges,
        r.openTag = none) ∧
    2 * ((annotate ['△', 'x', '▢', 'y', '▢', 'z', '△'] cfgTriSq [] 0).ranges.countP
        (fun r => r.symbol == '△')) =
      (['△', 'x', '▢', 'y', '▢', 'z', '△'] : List Char).count '△' ∧
    2 * ((annotate ['△', 'x', '▢', 'y', '▢', 'z', '△'] cfgTriSq [] 0).ranges.countP
        (fun r => r.symbol == '▢')) =
      (['△', 'x', '▢', 'y', '▢', 'z', '△'] : List Char).count '▢' := by
  have hbal : WellNested ((['△', 'x', '▢', 'y', '▢', 'z', '△'] : List Char).filter
      (fun c => (lookupSymbol cfgTriSq.symbols c).isSome)) := by
    have hf : (['△', 'x', '▢', 'y', '▢', 'z', '△'] : List Char).filter
        (fun c => (lookupSymbol cfgTriSq.symbols c).isSome) =
        ['△', '▢', '▢', '△'] := by decide
    rw [hf]
    exact WellNested.node '△' ['▢', '▢'] []
      (WellNested.node '▢' [] [] WellNested.nil WellNested.nil) WellNested.nil
  have h := wellNested_all_closed ['△', 'x', '▢', 'y', '▢', 'z', '△'] cfgTriSq [] 0 hbal
  exact ⟨h.1, h.2 '△' triOn rfl, h.2 '▢' sqOn (by decide)⟩
